import Mathlib

/-!
Verification of the schemlogica boolean-circuit compiler specification.

The repository ships only the canonical example program
(`src/examples/input.js`); the pipeline itself (AST validator, graph
builder, layering engine, placement engine, schematic emitter) is not
present under `src/`, so every pipeline definition below is modelled
from the specification text and marked as such in its doc comment.
-/

namespace Schemlogica

/-- Modelled from the spec: expression variants of the upstream syntax-tree
contract (§6): `BooleanLiteral`, `Identifier`, `UnaryNot`, `LogicalAnd`,
`LogicalOr`, `Equals`, `NotEquals`, `Conditional`.  A `NumericLiteral`
variant is included because the Validator (§4.1) must be able to reject
non-boolean (e.g. numeric) literals appearing in parsed input. -/
inductive Expr where
  | boolLit (value : Bool)
  | numLit (value : Int)
  | ident (name : String)
  | unaryNot (operand : Expr)
  | logicalAnd (left right : Expr)
  | logicalOr (left right : Expr)
  | equals (left right : Expr)
  | notEquals (left right : Expr)
  | conditional (test consequent alternate : Expr)
deriving Repr, DecidableEq

/-- Modelled from the spec: statement variants of the upstream contract (§6):
`VariableDeclaration{name, initializer}`, `AssignmentStatement{name,
expression}`, `ExpressionStatement{expression}`. -/
inductive Stmt where
  | varDecl (name : String) (initializer : Expr)
  | assign (name : String) (expression : Expr)
  | exprStmt (expression : Expr)
deriving Repr, DecidableEq

/-- A program is the ordered statement list of one compilation unit. -/
abbrev Program := List Stmt

/-- Modelled from the spec: the error taxonomy of §7 (ParseError belongs to
the external parser and is out of scope). -/
inductive Err where
  | semanticError (msg : String)
  | unboundIdentifier (name : String)
  | layoutError (msg : String)
  | schematicError (msg : String)
deriving Repr, DecidableEq

/-- Whether an error is a Validator-produced `SemanticError` (§7). -/
def Err.isSemantic : Err → Bool
  | .semanticError _ => true
  | _ => false

/-- Modelled from the spec: SignalNode kinds (§3):
INPUT, CONST, NOT, AND, OR, XOR, XNOR, MUX.  CONST carries its boolean
value (the two canonical constant nodes TRUE and FALSE, §4.2). -/
inductive Kind where
  | INPUT
  | CONST (value : Bool)
  | NOT
  | AND
  | OR
  | XOR
  | XNOR
  | MUX
deriving Repr, DecidableEq

/-- Modelled from the spec: the arity fixed by a node's kind (§3 invariant 2):
NOT=1, AND/OR/XOR/XNOR=2, MUX=3, INPUT/CONST=0. -/
def Kind.arity : Kind → Nat
  | .INPUT => 0
  | .CONST _ => 0
  | .NOT => 1
  | .AND => 2
  | .OR => 2
  | .XOR => 2
  | .XNOR => 2
  | .MUX => 3

/-- Modelled from the spec: a SignalNode (§3) — `kind` plus the ordered list
of operand references.  A node's identity and creation-order index are its
position in the Circuit's node list, so they are not stored again here;
`depth`, `layer` and position are computed by the later engines. -/
structure Node where
  kind : Kind
  operands : List Nat
deriving Repr, DecidableEq

/-- Modelled from the spec: a Circuit (§3) — the node set in creation order
plus the ordered list of output signals (nodes exposed by bare expression
statements). -/
structure Circuit where
  nodes : List Node
  outputs : List Nat
deriving Repr, DecidableEq

/-- Modelled from the spec: exact truth-table semantics of each gate kind
(§4.2 table and §8): NOT is negation, AND conjunction, OR disjunction,
XNOR equality, XOR inequality, MUX selects the true-branch when the
selector (first operand) is true and the false-branch otherwise.  CONST
yields its stored value; INPUT nodes are never emitted by the Graph
Builder, so their value is conventionally false. -/
def applyGate (k : Kind) (args : List Bool) : Bool :=
  match k with
  | .INPUT => false
  | .CONST b => b
  | .NOT => !(args.getD 0 false)
  | .AND => (args.getD 0 false) && (args.getD 1 false)
  | .OR => (args.getD 0 false) || (args.getD 1 false)
  | .XOR => (args.getD 0 false) != (args.getD 1 false)
  | .XNOR => (args.getD 0 false) == (args.getD 1 false)
  | .MUX => if args.getD 0 false then args.getD 1 false else args.getD 2 false

/-- Evaluate the nodes of a circuit in creation order, accumulating the
list of node values; each node reads its operands' already-computed
values (forward-only construction, §3 lifecycle). -/
def evalNodesGo : List Node → List Bool → List Bool
  | [], acc => acc
  | n :: rest, acc =>
      evalNodesGo rest (acc ++ [applyGate n.kind (n.operands.map (fun j => acc.getD j false))])

/-- The value list of every node of a circuit, in creation order. -/
def circuitValues (c : Circuit) : List Bool :=
  evalNodesGo c.nodes []

/-- The boolean value of node `i` under the gate semantics. -/
def circuitValue (c : Circuit) (i : Nat) : Bool :=
  (circuitValues c).getD i false

/-- Modelled from the spec: the Validator's per-expression check (§4.1):
every identifier is used only after a preceding declaration (looked up in
the set of declared names), and every literal is statically boolean
(numeric literals are rejected). -/
def checkExpr (declared : List String) : Expr → Except Err Unit
  | .boolLit _ => .ok ()
  | .numLit _ => .error (.semanticError "non-boolean literal")
  | .ident n =>
      if n ∈ declared then .ok ()
      else .error (.semanticError ("use of undeclared identifier " ++ n))
  | .unaryNot e => checkExpr declared e
  | .logicalAnd l r => do checkExpr declared l; checkExpr declared r
  | .logicalOr l r => do checkExpr declared l; checkExpr declared r
  | .equals l r => do checkExpr declared l; checkExpr declared r
  | .notEquals l r => do checkExpr declared l; checkExpr declared r
  | .conditional c t f => do
      checkExpr declared c; checkExpr declared t; checkExpr declared f

/-- Modelled from the spec: the AST Validator (§4.1), threading the set of
declared names in program order.  A `let` declaration may not redeclare a
name; a plain assignment's target must already be declared; every
expression is checked by `checkExpr`. -/
def validateStmts (declared : List String) : List Stmt → Except Err Unit
  | [] => .ok ()
  | .varDecl name init :: rest => do
      if name ∈ declared then
        Except.error (.semanticError ("redeclaration of " ++ name))
      else
        checkExpr declared init
        validateStmts (name :: declared) rest
  | .assign name e :: rest => do
      if name ∈ declared then
        checkExpr declared e
        validateStmts declared rest
      else
        Except.error (.semanticError ("assignment to undeclared " ++ name))
  | .exprStmt e :: rest => do
      checkExpr declared e
      validateStmts declared rest

/-- Modelled from the spec: top-level validation of a program. -/
def validate (p : Program) : Except Err Unit :=
  validateStmts [] p

/-- The Graph Builder's threaded state: node list in creation order, the
Environment (name → node mapping, newest binding first), and the ordered
output-signal list (§3, §4.2). -/
structure BState where
  nodes : List Node
  env : List (String × Nat)
  outputs : List Nat
deriving Repr, DecidableEq

/-- Identity of the canonical TRUE constant node (§4.2). -/
def trueNodeId : Nat := 0

/-- Identity of the canonical FALSE constant node (§4.2). -/
def falseNodeId : Nat := 1

/-- Modelled from the spec: the initial builder state holds the two
canonical CONST nodes TRUE and FALSE, referenced by all literals of that
value (§4.2 expression table). -/
def initBState : BState :=
  { nodes := [⟨.CONST true, []⟩, ⟨.CONST false, []⟩], env := [], outputs := [] }

/-- Append a freshly created node; its identity is its creation-order
index (§3 lifecycle, §4.5). -/
def pushNode (st : BState) (k : Kind) (ops : List Nat) : Nat × BState :=
  (st.nodes.length, { st with nodes := st.nodes ++ [⟨k, ops⟩] })

/-- Modelled from the spec: expression compilation (§4.2 table).  Boolean
literals reuse the canonical CONST nodes; identifiers return the node
currently bound in the Environment (UnboundIdentifier if absent); `!` is
NOT; `&&` is AND; `||` is OR; `==` is XNOR; `!=` is XOR; the ternary is a
MUX whose operands are selector, true-branch, false-branch in order. -/
def compileExpr (st : BState) : Expr → Except Err (Nat × BState)
  | .boolLit true => .ok (trueNodeId, st)
  | .boolLit false => .ok (falseNodeId, st)
  | .numLit _ => .error (.semanticError "non-boolean literal")
  | .ident n =>
      match st.env.lookup n with
      | some v => .ok (v, st)
      | none => .error (.unboundIdentifier n)
  | .unaryNot e => do
      let (v, st1) ← compileExpr st e
      .ok (pushNode st1 .NOT [v])
  | .logicalAnd l r => do
      let (vl, st1) ← compileExpr st l
      let (vr, st2) ← compileExpr st1 r
      .ok (pushNode st2 .AND [vl, vr])
  | .logicalOr l r => do
      let (vl, st1) ← compileExpr st l
      let (vr, st2) ← compileExpr st1 r
      .ok (pushNode st2 .OR [vl, vr])
  | .equals l r => do
      let (vl, st1) ← compileExpr st l
      let (vr, st2) ← compileExpr st1 r
      .ok (pushNode st2 .XNOR [vl, vr])
  | .notEquals l r => do
      let (vl, st1) ← compileExpr st l
      let (vr, st2) ← compileExpr st1 r
      .ok (pushNode st2 .XOR [vl, vr])
  | .conditional c t f => do
      let (vc, st1) ← compileExpr st c
      let (vt, st2) ← compileExpr st1 t
      let (vf, st3) ← compileExpr st2 f
      .ok (pushNode st3 .MUX [vc, vt, vf])

/-- Modelled from the spec: the Graph Builder's statement pass (§4.2).
`let` compiles the initializer against the current Environment then binds
the name; reassignment compiles against the current Environment (which
still maps the name to its old node) then overwrites the binding; a bare
expression statement appends the compiled node to the output-signal
list. -/
def buildStmts (st : BState) : List Stmt → Except Err BState
  | [] => .ok st
  | .varDecl name init :: rest => do
      let (v, st1) ← compileExpr st init
      buildStmts { st1 with env := (name, v) :: st1.env } rest
  | .assign name e :: rest => do
      let (v, st1) ← compileExpr st e
      buildStmts { st1 with env := (name, v) :: st1.env } rest
  | .exprStmt e :: rest => do
      let (v, st1) ← compileExpr st e
      buildStmts { st1 with outputs := st1.outputs ++ [v] } rest

/-- Modelled from the spec: build the Circuit of a program (§4.2 result). -/
def buildProgram (p : Program) : Except Err Circuit := do
  let st ← buildStmts initBState p
  .ok ⟨st.nodes, st.outputs⟩

/-- Modelled from the spec: the depth of one node given the depths of all
earlier nodes (§3 invariant 3): 0 for a node with no operands, otherwise
1 + the maximum operand depth. -/
def nodeDepth (acc : List Nat) (n : Node) : Nat :=
  match n.operands with
  | [] => 0
  | ops => 1 + (ops.map (fun j => acc.getD j 0)).foldl max 0

/-- Modelled from the spec: the Layering Engine's traversal (§4.3) —
creation order is a topological order (operands are created strictly
earlier, §3 lifecycle), so a single forward pass computes every depth. -/
def depthsGo : List Node → List Nat → List Nat
  | [], acc => acc
  | n :: rest, acc => depthsGo rest (acc ++ [nodeDepth acc n])

/-- The depth of every node of a circuit, in creation order. -/
def depths (c : Circuit) : List Nat :=
  depthsGo c.nodes []

/-- Modelled from the spec: the layer of a node is its depth (§4.3). -/
def layerOf (c : Circuit) (i : Nat) : Nat :=
  (depths c).getD i 0

/-- Modelled from the spec: the LayoutGrid (§3) — the ordered list of nodes
occupying layer `l`, in creation order. -/
def gridLayer (c : Circuit) (l : Nat) : List Nat :=
  (List.range c.nodes.length).filter (fun i => layerOf c i = l)

/-- Modelled from the spec: a node's rank is its position in the
LayoutGrid's per-layer ordered list (§4.4). -/
def rankOf (c : Circuit) (i : Nat) : Nat :=
  (gridLayer c (layerOf c i)).indexOf i

/-- Modelled from the spec: named configuration constant — the fixed
spacing between adjacent layers and ranks (§4.4, §9: the exact value is
implementation-defined; only its positivity is load-bearing). -/
def fixedSpacing : Nat := 2

/-- Modelled from the spec: named configuration constant — the baseline
coordinate of the third axis (§4.4). -/
def baseline : Nat := 0

/-- Modelled from the spec: named configuration constant — the fan-out
threshold above which a node is offset on the third axis (§4.4). -/
def fanOutThreshold : Nat := 3

/-- Modelled from the spec: named configuration constant — the congestion
offset applied to high-fan-out nodes (§4.4). -/
def congestionOffset : Nat := 1

/-- The fan-out of node `i`: how many nodes list it as an operand. -/
def fanOut (c : Circuit) (i : Nat) : Nat :=
  (c.nodes.filter (fun n => i ∈ n.operands)).length

/-- A deterministic 3D position (§4.4). -/
structure Pos3 where
  x : Nat
  y : Nat
  z : Nat
deriving Repr, DecidableEq

/-- Modelled from the spec: the Placement Engine (§4.4).  One axis is
`layer × fixedSpacing`, a second is `rank-within-layer × fixedSpacing`,
the third is the constant baseline, offset by the congestion heuristic
when the node's fan-out exceeds the threshold. -/
def placeNode (c : Circuit) (i : Nat) : Pos3 :=
  { x := layerOf c i * fixedSpacing
    y := rankOf c i * fixedSpacing
    z := baseline + (if fanOutThreshold < fanOut c i then congestionOffset else 0) }

/-- Modelled from the spec: one record of the coordinate-free intermediate
graph (§6): `{id, kind, operandIds[]}`. -/
structure IGNode where
  id : Nat
  kind : Kind
  operandIds : List Nat
deriving Repr, DecidableEq

/-- Modelled from the spec: the intermediate-graph artifact (§6):
`{ nodes, outputs }`, a debug-oriented coordinate-free view. -/
structure IGraph where
  nodes : List IGNode
  outputs : List Nat
deriving Repr, DecidableEq

/-- Modelled from the spec: an input-port reference of a schematic block
(§4.5, §6): `(sourceBlockId, sourceOutputPort)`. -/
structure PortRef where
  sourceId : Nat
  sourcePort : Nat
deriving Repr, DecidableEq

/-- Modelled from the spec: one schematic block (§6): id, kind, position,
ordered input ports, single output port. -/
structure Block where
  id : Nat
  kind : Kind
  position : Pos3
  inputs : List PortRef
  outputPort : Nat
deriving Repr, DecidableEq

/-- Modelled from the spec: the schematic artifact (§6):
`{ version, blocks, outputs }`. -/
structure Schematic where
  version : Nat
  blocks : List Block
  outputs : List Nat
deriving Repr, DecidableEq

/-- Modelled from the spec: the Schematic Emitter (§4.5).  Block ids are
creation-order indices; each operand becomes an input port referencing
`(sourceBlockId, 0)` (every block has a single output port 0); blocks on
the Circuit's output-signal list are the observed outputs.  A port
reference that does not resolve to an existing block is a
SchematicError. -/
def emit (c : Circuit) : Except Err (IGraph × Schematic) := do
  let n := c.nodes.length
  if (c.nodes.all (fun nd => nd.operands.all (fun j => j < n))) then
    let ig : IGraph :=
      { nodes := (List.range n).map (fun i =>
          { id := i
            kind := (c.nodes.getD i ⟨.INPUT, []⟩).kind
            operandIds := (c.nodes.getD i ⟨.INPUT, []⟩).operands })
        outputs := c.outputs }
    let sch : Schematic :=
      { version := 1
        blocks := (List.range n).map (fun i =>
          { id := i
            kind := (c.nodes.getD i ⟨.INPUT, []⟩).kind
            position := placeNode c i
            inputs := (c.nodes.getD i ⟨.INPUT, []⟩).operands.map
              (fun j => { sourceId := j, sourcePort := 0 })
            outputPort := 0 })
        outputs := c.outputs }
    .ok (ig, sch)
  else
    .error (.schematicError "unresolved port reference")

/-- Modelled from the spec: the whole sequential pipeline (§5):
Validator → Builder → Layering/Placement → Emitter, producing both
artifacts or a typed failure and no artifacts (§6, §7). -/
def compile (p : Program) : Except Err (IGraph × Schematic) := do
  validate p
  let c ← buildProgram p
  emit c

/-- The canonical end-to-end program, transcribed statement by statement
from `src/examples/input.js`. -/
def canonicalProgram : Program :=
  [ .varDecl "a" (.boolLit true),
    .varDecl "b" (.boolLit false),
    .varDecl "c" (.logicalAnd (.ident "a") (.unaryNot (.ident "b"))),
    .varDecl "d" (.logicalOr (.ident "a") (.ident "b")),
    .varDecl "e" (.conditional (.logicalAnd (.ident "a") (.ident "b"))
                    (.boolLit false) (.boolLit true)),
    .varDecl "same" (.equals (.ident "a") (.ident "d")),
    .varDecl "different" (.notEquals (.ident "a") (.ident "b")),
    .varDecl "intermediate"
      (.logicalAnd (.logicalOr (.ident "c") (.ident "d"))
        (.unaryNot (.ident "different"))),
    .assign "intermediate"
      (.conditional (.ident "intermediate") (.ident "e") (.ident "b")),
    .exprStmt (.ident "intermediate") ]

/-- The rebinding scenario of the spec's testable properties (§8):
`let a=true; let b=a; a=false; let c=a;`. -/
def rebindProgram : Program :=
  [ .varDecl "a" (.boolLit true),
    .varDecl "b" (.ident "a"),
    .assign "a" (.boolLit false),
    .varDecl "c" (.ident "a") ]

/-- The self-referential reassignment scenario of §4.2: `let a=true; a=!a;`. -/
def selfRefProgram : Program :=
  [ .varDecl "a" (.boolLit true),
    .assign "a" (.unaryNot (.ident "a")) ]

/-- A minimal one-statement program, used to exhibit concrete instances of
the universally quantified invariants. -/
def tinyProgram : Program :=
  [ .exprStmt (.boolLit true) ]

/-- The circuit the Graph Builder produces for `tinyProgram`: just the two
canonical constant nodes, with the TRUE node exposed as an output. -/
def tinyCircuit : Circuit :=
  ⟨[⟨.CONST true, []⟩, ⟨.CONST false, []⟩], [0]⟩

/-- Default node used when reading a node list at an index. -/
def dfltNode : Node := ⟨.INPUT, []⟩

/-- The node of circuit `c` at creation-order index `i`. -/
def nodeAt (c : Circuit) (i : Nat) : Node :=
  c.nodes.getD i dfltNode

/-- Forward-only construction (§3 lifecycle): every node's operands have
strictly smaller creation-order indices. -/
def wfNodes (ns : List Node) : Prop :=
  ∀ i, i < ns.length → ∀ j ∈ (ns.getD i dfltNode).operands, j < i

/-- Arity conformance (§3 invariant 2): every node's operand count equals
its kind's arity. -/
def arityNodes (ns : List Node) : Prop :=
  ∀ i, i < ns.length → (ns.getD i dfltNode).operands.length = (ns.getD i dfltNode).kind.arity

/-- Every Environment binding refers to an existing node. -/
def envBound (st : BState) : Prop :=
  ∀ q ∈ st.env, q.2 < st.nodes.length

/-- The Graph Builder's state invariant: the two canonical constant nodes
exist, construction is forward-only, arities are respected, and the
Environment only mentions existing nodes. -/
def InvB (st : BState) : Prop :=
  2 ≤ st.nodes.length ∧ wfNodes st.nodes ∧ arityNodes st.nodes ∧ envBound st

/-- There is an operand edge from node `i` to node `j` when `j` appears in
`i`'s operand list. -/
def opEdge (c : Circuit) (i j : Nat) : Prop :=
  i < c.nodes.length ∧ j ∈ (nodeAt c i).operands

/-- Whether some identifier occurring in `e` is missing from the set of
declared names. -/
def exprUndeclared (declared : List String) : Expr → Bool
  | .boolLit _ => false
  | .numLit _ => false
  | .ident n => !(decide (n ∈ declared))
  | .unaryNot e => exprUndeclared declared e
  | .logicalAnd l r => exprUndeclared declared l || exprUndeclared declared r
  | .logicalOr l r => exprUndeclared declared l || exprUndeclared declared r
  | .equals l r => exprUndeclared declared l || exprUndeclared declared r
  | .notEquals l r => exprUndeclared declared l || exprUndeclared declared r
  | .conditional c t f =>
      exprUndeclared declared c || exprUndeclared declared t || exprUndeclared declared f

/-- Whether `e` contains a non-boolean (numeric) literal. -/
def exprNonBool : Expr → Bool
  | .boolLit _ => false
  | .numLit _ => true
  | .ident _ => false
  | .unaryNot e => exprNonBool e
  | .logicalAnd l r => exprNonBool l || exprNonBool r
  | .logicalOr l r => exprNonBool l || exprNonBool r
  | .equals l r => exprNonBool l || exprNonBool r
  | .notEquals l r => exprNonBool l || exprNonBool r
  | .conditional c t f => exprNonBool c || exprNonBool t || exprNonBool f

/-- Whether the program uses an identifier before its declaration, reading
statements in program order and accumulating declared names. -/
def useBeforeDecl (declared : List String) : List Stmt → Bool
  | [] => false
  | .varDecl n init :: rest =>
      exprUndeclared declared init || useBeforeDecl (n :: declared) rest
  | .assign _ e :: rest => exprUndeclared declared e || useBeforeDecl declared rest
  | .exprStmt e :: rest => exprUndeclared declared e || useBeforeDecl declared rest

/-- Whether some statement of the program contains a non-boolean literal. -/
def hasNonBoolLit (p : Program) : Bool :=
  p.any fun s =>
    match s with
    | .varDecl _ e => exprNonBool e
    | .assign _ e => exprNonBool e
    | .exprStmt e => exprNonBool e

/-- A program that uses the identifier `x` before any declaration. -/
def badUseProgram : Program :=
  [ .exprStmt (.ident "x") ]

theorem exceptBind_ok {α β : Type} {x : Except Err α} {f : α → Except Err β} {b : β}
    (h : (x >>= f) = .ok b) : ∃ a, x = .ok a ∧ f a = .ok b := by
  cases x with
  | error e => simp [Bind.bind, Except.bind] at h
  | ok a => exact ⟨a, rfl, by simpa [Bind.bind, Except.bind] using h⟩

theorem exceptBind_error {α β : Type} {x : Except Err α} {f : α → Except Err β} {e : Err}
    (h : x = .error e) : (x >>= f) = .error e := by
  subst h; rfl

theorem lookup_mem : ∀ {env : List (String × Nat)} {n : String} {v : Nat},
    env.lookup n = some v → ∃ m, (m, v) ∈ env := by
  intro env
  induction env with
  | nil => intro n v h; simp [List.lookup] at h
  | cons q rest ih =>
      intro n v h
      obtain ⟨k, b⟩ := q
      cases hbeq : (n == k) with
      | true =>
          simp [List.lookup, hbeq] at h
          exact ⟨k, by simp [h]⟩
      | false =>
          simp [List.lookup, hbeq] at h
          obtain ⟨m, hm⟩ := ih h
          exact ⟨m, List.mem_cons_of_mem _ hm⟩

theorem wfNodes_push {ns : List Node} {k : Kind} {ops : List Nat}
    (h : wfNodes ns) (hops : ∀ j ∈ ops, j < ns.length) :
    wfNodes (ns ++ [⟨k, ops⟩]) := by
  intro i hi j hj
  rw [List.length_append, List.length_singleton] at hi
  by_cases hlt : i < ns.length
  · rw [List.getD_append _ _ _ _ hlt] at hj
    exact h i hlt j hj
  · have hieq : i = ns.length := by omega
    subst hieq
    rw [List.getD_append_right _ _ _ _ (le_refl _)] at hj
    simp at hj
    exact hops j hj

theorem arityNodes_push {ns : List Node} {k : Kind} {ops : List Nat}
    (h : arityNodes ns) (har : ops.length = k.arity) :
    arityNodes (ns ++ [⟨k, ops⟩]) := by
  intro i hi
  rw [List.length_append, List.length_singleton] at hi
  by_cases hlt : i < ns.length
  · rw [List.getD_append _ _ _ _ hlt]
    exact h i hlt
  · have hieq : i = ns.length := by omega
    subst hieq
    rw [List.getD_append_right _ _ _ _ (le_refl _)]
    simpa using har

theorem InvB_push (st : BState) (k : Kind) (ops : List Nat)
    (h : InvB st) (hops : ∀ j ∈ ops, j < st.nodes.length) (har : ops.length = k.arity) :
    InvB (pushNode st k ops).2 ∧ st.nodes.length ≤ (pushNode st k ops).2.nodes.length ∧
      (pushNode st k ops).1 < (pushNode st k ops).2.nodes.length ∧
      (pushNode st k ops).2.env = st.env := by
  obtain ⟨hlen, hwf, har0, henv⟩ := h
  refine ⟨⟨?_, wfNodes_push hwf hops, arityNodes_push har0 har, ?_⟩, ?_, ?_, rfl⟩
  · simp [pushNode]; omega
  · intro q hq
    have := henv q hq
    simp [pushNode]; omega
  · simp [pushNode]
  · simp [pushNode]

theorem InvB_init : InvB initBState := by
  refine ⟨by simp [initBState], ?_, ?_, ?_⟩
  · intro i hi j hj
    simp [initBState] at hi
    interval_cases i <;> simp [initBState, dfltNode] at hj
  · intro i hi
    simp [initBState] at hi
    interval_cases i <;> simp [initBState, dfltNode, Kind.arity]
  · intro q hq
    simp [initBState] at hq

theorem compileExpr_inv : ∀ (e : Expr) (st : BState) (v : Nat) (st' : BState),
    InvB st → compileExpr st e = .ok (v, st') →
    InvB st' ∧ st.nodes.length ≤ st'.nodes.length ∧ v < st'.nodes.length ∧
      st'.env = st.env := by
  intro e
  induction e with
  | boolLit b =>
      intro st v st' hInv h
      have hlen : 2 ≤ st.nodes.length := hInv.1
      cases b <;>
      · simp [compileExpr, trueNodeId, falseNodeId] at h
        obtain ⟨hv, hst⟩ := h
        subst hv; subst hst
        exact ⟨hInv, le_refl _, by omega, rfl⟩
  | numLit m =>
      intro st v st' hInv h
      simp [compileExpr] at h
  | ident n =>
      intro st v st' hInv h
      simp only [compileExpr] at h
      cases hl : st.env.lookup n with
      | none => rw [hl] at h; simp at h
      | some w =>
          rw [hl] at h
          simp at h
          obtain ⟨rfl, rfl⟩ := h
          obtain ⟨m, hm⟩ := lookup_mem hl
          exact ⟨hInv, le_refl _, hInv.2.2.2 (m, w) hm, rfl⟩
  | unaryNot e ih =>
      intro st v st' hInv h
      simp only [compileExpr] at h
      obtain ⟨⟨v1, st1⟩, h1, h2⟩ := exceptBind_ok h
      obtain ⟨hInv1, hle1, hv1, henv1⟩ := ih st v1 st1 hInv h1
      simp at h2
      have hv : v = (pushNode st1 .NOT [v1]).1 := by rw [h2]
      have hst : st' = (pushNode st1 .NOT [v1]).2 := by rw [h2]
      have hp := InvB_push st1 .NOT [v1] hInv1
        (by intro j hj; simp at hj; omega) (by simp [Kind.arity])
      subst hv; subst hst
      exact ⟨hp.1, le_trans hle1 hp.2.1, hp.2.2.1, by rw [hp.2.2.2, henv1]⟩
  | logicalAnd l r ihl ihr =>
      intro st v st' hInv h
      simp only [compileExpr] at h
      obtain ⟨⟨vl, st1⟩, h1, h'⟩ := exceptBind_ok h
      obtain ⟨⟨vr, st2⟩, h2, h3⟩ := exceptBind_ok h'
      obtain ⟨hInv1, hle1, hv1, henv1⟩ := ihl st vl st1 hInv h1
      obtain ⟨hInv2, hle2, hv2, henv2⟩ := ihr st1 vr st2 hInv1 h2
      simp at h3
      have hv : v = (pushNode st2 .AND [vl, vr]).1 := by rw [h3]
      have hst : st' = (pushNode st2 .AND [vl, vr]).2 := by rw [h3]
      have hp := InvB_push st2 .AND [vl, vr] hInv2
        (by intro j hj; simp at hj; rcases hj with hj | hj <;> omega)
        (by simp [Kind.arity])
      subst hv; subst hst
      exact ⟨hp.1, le_trans hle1 (le_trans hle2 hp.2.1), hp.2.2.1,
        by rw [hp.2.2.2, henv2, henv1]⟩
  | logicalOr l r ihl ihr =>
      intro st v st' hInv h
      simp only [compileExpr] at h
      obtain ⟨⟨vl, st1⟩, h1, h'⟩ := exceptBind_ok h
      obtain ⟨⟨vr, st2⟩, h2, h3⟩ := exceptBind_ok h'
      obtain ⟨hInv1, hle1, hv1, henv1⟩ := ihl st vl st1 hInv h1
      obtain ⟨hInv2, hle2, hv2, henv2⟩ := ihr st1 vr st2 hInv1 h2
      simp at h3
      have hv : v = (pushNode st2 .OR [vl, vr]).1 := by rw [h3]
      have hst : st' = (pushNode st2 .OR [vl, vr]).2 := by rw [h3]
      have hp := InvB_push st2 .OR [vl, vr] hInv2
        (by intro j hj; simp at hj; rcases hj with hj | hj <;> omega)
        (by simp [Kind.arity])
      subst hv; subst hst
      exact ⟨hp.1, le_trans hle1 (le_trans hle2 hp.2.1), hp.2.2.1,
        by rw [hp.2.2.2, henv2, henv1]⟩
  | equals l r ihl ihr =>
      intro st v st' hInv h
      simp only [compileExpr] at h
      obtain ⟨⟨vl, st1⟩, h1, h'⟩ := exceptBind_ok h
      obtain ⟨⟨vr, st2⟩, h2, h3⟩ := exceptBind_ok h'
      obtain ⟨hInv1, hle1, hv1, henv1⟩ := ihl st vl st1 hInv h1
      obtain ⟨hInv2, hle2, hv2, henv2⟩ := ihr st1 vr st2 hInv1 h2
      simp at h3
      have hv : v = (pushNode st2 .XNOR [vl, vr]).1 := by rw [h3]
      have hst : st' = (pushNode st2 .XNOR [vl, vr]).2 := by rw [h3]
      have hp := InvB_push st2 .XNOR [vl, vr] hInv2
        (by intro j hj; simp at hj; rcases hj with hj | hj <;> omega)
        (by simp [Kind.arity])
      subst hv; subst hst
      exact ⟨hp.1, le_trans hle1 (le_trans hle2 hp.2.1), hp.2.2.1,
        by rw [hp.2.2.2, henv2, henv1]⟩
  | notEquals l r ihl ihr =>
      intro st v st' hInv h
      simp only [compileExpr] at h
      obtain ⟨⟨vl, st1⟩, h1, h'⟩ := exceptBind_ok h
      obtain ⟨⟨vr, st2⟩, h2, h3⟩ := exceptBind_ok h'
      obtain ⟨hInv1, hle1, hv1, henv1⟩ := ihl st vl st1 hInv h1
      obtain ⟨hInv2, hle2, hv2, henv2⟩ := ihr st1 vr st2 hInv1 h2
      simp at h3
      have hv : v = (pushNode st2 .XOR [vl, vr]).1 := by rw [h3]
      have hst : st' = (pushNode st2 .XOR [vl, vr]).2 := by rw [h3]
      have hp := InvB_push st2 .XOR [vl, vr] hInv2
        (by intro j hj; simp at hj; rcases hj with hj | hj <;> omega)
        (by simp [Kind.arity])
      subst hv; subst hst
      exact ⟨hp.1, le_trans hle1 (le_trans hle2 hp.2.1), hp.2.2.1,
        by rw [hp.2.2.2, henv2, henv1]⟩
  | conditional c t f ihc iht ihf =>
      intro st v st' hInv h
      simp only [compileExpr] at h
      obtain ⟨⟨vc, st1⟩, h1, h'⟩ := exceptBind_ok h
      obtain ⟨⟨vt, st2⟩, h2, h''⟩ := exceptBind_ok h'
      obtain ⟨⟨vf, st3⟩, h3, h4⟩ := exceptBind_ok h''
      obtain ⟨hInv1, hle1, hv1, henv1⟩ := ihc st vc st1 hInv h1
      obtain ⟨hInv2, hle2, hv2, henv2⟩ := iht st1 vt st2 hInv1 h2
      obtain ⟨hInv3, hle3, hv3, henv3⟩ := ihf st2 vf st3 hInv2 h3
      simp at h4
      have hv : v = (pushNode st3 .MUX [vc, vt, vf]).1 := by rw [h4]
      have hst : st' = (pushNode st3 .MUX [vc, vt, vf]).2 := by rw [h4]
      have hp := InvB_push st3 .MUX [vc, vt, vf] hInv3
        (by intro j hj; simp at hj; rcases hj with hj | hj | hj <;> omega)
        (by simp [Kind.arity])
      subst hv; subst hst
      exact ⟨hp.1, le_trans hle1 (le_trans hle2 (le_trans hle3 hp.2.1)), hp.2.2.1,
        by rw [hp.2.2.2, henv3, henv2, henv1]⟩

theorem buildStmts_inv : ∀ (ss : List Stmt) (st st' : BState),
    InvB st → buildStmts st ss = .ok st' → InvB st' := by
  intro ss
  induction ss with
  | nil =>
      intro st st' h hb
      simp [buildStmts] at hb
      rwa [← hb]
  | cons s rest ih =>
      intro st st' h hb
      cases s with
      | varDecl name init =>
          simp only [buildStmts] at hb
          obtain ⟨⟨v, st1⟩, h1, h2⟩ := exceptBind_ok hb
          obtain ⟨hInv1, _, hv1, _⟩ := compileExpr_inv init st v st1 h h1
          refine ih { st1 with env := (name, v) :: st1.env } st'
            ⟨hInv1.1, hInv1.2.1, hInv1.2.2.1, ?_⟩ h2
          intro q hq
          rcases List.mem_cons.mp hq with hq | hq
          · subst hq; exact hv1
          · exact hInv1.2.2.2 q hq
      | assign name e =>
          simp only [buildStmts] at hb
          obtain ⟨⟨v, st1⟩, h1, h2⟩ := exceptBind_ok hb
          obtain ⟨hInv1, _, hv1, _⟩ := compileExpr_inv e st v st1 h h1
          refine ih { st1 with env := (name, v) :: st1.env } st'
            ⟨hInv1.1, hInv1.2.1, hInv1.2.2.1, ?_⟩ h2
          intro q hq
          rcases List.mem_cons.mp hq with hq | hq
          · subst hq; exact hv1
          · exact hInv1.2.2.2 q hq
      | exprStmt e =>
          simp only [buildStmts] at hb
          obtain ⟨⟨v, st1⟩, h1, h2⟩ := exceptBind_ok hb
          obtain ⟨hInv1, _, hv1, _⟩ := compileExpr_inv e st v st1 h h1
          exact ih { st1 with outputs := st1.outputs ++ [v] } st'
            ⟨hInv1.1, hInv1.2.1, hInv1.2.2.1, hInv1.2.2.2⟩ h2

theorem buildProgram_inv : ∀ (p : Program) (c : Circuit),
    buildProgram p = .ok c → wfNodes c.nodes ∧ arityNodes c.nodes := by
  intro p c h
  simp only [buildProgram] at h
  obtain ⟨st, h1, h2⟩ := exceptBind_ok h
  have hInv := buildStmts_inv p initBState st InvB_init h1
  simp at h2
  rw [← h2]
  exact ⟨hInv.2.1, hInv.2.2.1⟩

theorem depthsGo_length : ∀ (ns : List Node) (acc : List Nat),
    (depthsGo ns acc).length = acc.length + ns.length := by
  intro ns
  induction ns with
  | nil => intro acc; simp [depthsGo]
  | cons n rest ih =>
      intro acc
      rw [depthsGo, ih]
      simp
      omega

theorem depthsGo_getD_lt : ∀ (ns : List Node) (acc : List Nat) (i : Nat), i < acc.length →
    (depthsGo ns acc).getD i 0 = acc.getD i 0 := by
  intro ns
  induction ns with
  | nil => intro acc i _; rfl
  | cons n rest ih =>
      intro acc i hi
      rw [depthsGo, ih _ _ (by simp; omega), List.getD_append _ _ _ _ hi]

theorem depthsGo_append : ∀ (xs ys : List Node) (acc : List Nat),
    depthsGo (xs ++ ys) acc = depthsGo ys (depthsGo xs acc) := by
  intro xs
  induction xs with
  | nil => intro ys acc; rfl
  | cons x rest ih => intro ys acc; rw [List.cons_append, depthsGo, ih, depthsGo]

theorem depthsGo_entry : ∀ (ns : List Node) (acc : List Nat) (i : Nat), i < ns.length →
    (depthsGo ns acc).getD (acc.length + i) 0 =
      nodeDepth (depthsGo (ns.take i) acc) (ns.getD i dfltNode) := by
  intro ns
  induction ns with
  | nil => intro acc i hi; simp at hi
  | cons n rest ih =>
      intro acc i hi
      cases i with
      | zero =>
          rw [depthsGo]
          rw [depthsGo_getD_lt rest _ _ (by simp)]
          simp [depthsGo]
      | succ i =>
          rw [depthsGo]
          have harr : acc.length + (i + 1) = (acc ++ [nodeDepth acc n]).length + i := by
            simp
            omega
          rw [harr, ih _ i (by simpa using hi)]
          simp [List.take_succ_cons, depthsGo]

theorem depths_recurrence (c : Circuit) (hwf : wfNodes c.nodes) (i : Nat)
    (hi : i < c.nodes.length) :
    (depths c).getD i 0 =
      if (nodeAt c i).operands = [] then 0
      else 1 + ((nodeAt c i).operands.map (fun j => (depths c).getD j 0)).foldl max 0 := by
  have hsplit : depths c = depthsGo (c.nodes.drop i) (depthsGo (c.nodes.take i) []) := by
    rw [depths, ← depthsGo_append, List.take_append_drop]
  have hlenpre : (depthsGo (c.nodes.take i) []).length = i := by
    rw [depthsGo_length]
    simp
    omega
  have hentry := depthsGo_entry c.nodes [] i hi
  simp only [List.length_nil, Nat.zero_add] at hentry
  have hmain : (depths c).getD i 0 = nodeDepth (depthsGo (c.nodes.take i) []) (nodeAt c i) := by
    rw [depths, hentry]; rfl
  have hagree : ∀ j, j < i →
      (depthsGo (c.nodes.take i) []).getD j 0 = (depths c).getD j 0 := by
    intro j hj
    rw [hsplit]
    exact (depthsGo_getD_lt _ _ _ (by omega)).symm
  rw [hmain]
  cases hop : (nodeAt c i).operands with
  | nil => simp [nodeDepth, hop]
  | cons a as =>
      simp only [nodeDepth, hop]
      have hmap : ((a :: as).map (fun j => (depthsGo (c.nodes.take i) []).getD j 0)) =
          ((a :: as).map (fun j => (depths c).getD j 0)) := by
        apply List.map_congr_left
        intro j hj
        exact hagree j (hwf i hi j (by rw [← hop] at hj; exact hj))
      rw [hmap]
      simp

theorem mem_gridLayer (c : Circuit) (i : Nat) (hi : i < c.nodes.length) :
    i ∈ gridLayer c (layerOf c i) := by
  simp [gridLayer, List.mem_filter, List.mem_range, hi]

theorem exceptBind_error_inv {α β : Type} {x : Except Err α} {f : α → Except Err β} {e : Err}
    (h : (x >>= f) = .error e) : x = .error e ∨ ∃ a, x = .ok a ∧ f a = .error e := by
  cases x with
  | error e' =>
      left
      have : e' = e := by simpa [Bind.bind, Except.bind] using h
      rw [this]
  | ok a => exact Or.inr ⟨a, rfl, by simpa [Bind.bind, Except.bind] using h⟩

theorem checkExpr_ok : ∀ (e : Expr) (declared : List String), checkExpr declared e = .ok () →
    exprUndeclared declared e = false ∧ exprNonBool e = false := by
  intro e
  induction e with
  | boolLit b => intro declared _; exact ⟨rfl, rfl⟩
  | numLit m => intro declared h; simp [checkExpr] at h
  | ident n =>
      intro declared h
      by_cases hd : n ∈ declared
      · simp [exprUndeclared, exprNonBool, hd]
      · simp [checkExpr, hd] at h
  | unaryNot e ih =>
      intro declared h
      have := ih declared h
      simpa [exprUndeclared, exprNonBool] using this
  | logicalAnd l r ihl ihr =>
      intro declared h
      simp only [checkExpr] at h
      obtain ⟨a, h1, h2⟩ := exceptBind_ok h
      cases a
      have hl := ihl declared h1
      have hr := ihr declared h2
      simp [exprUndeclared, exprNonBool, hl.1, hl.2, hr.1, hr.2]
  | logicalOr l r ihl ihr =>
      intro declared h
      simp only [checkExpr] at h
      obtain ⟨a, h1, h2⟩ := exceptBind_ok h
      cases a
      have hl := ihl declared h1
      have hr := ihr declared h2
      simp [exprUndeclared, exprNonBool, hl.1, hl.2, hr.1, hr.2]
  | equals l r ihl ihr =>
      intro declared h
      simp only [checkExpr] at h
      obtain ⟨a, h1, h2⟩ := exceptBind_ok h
      cases a
      have hl := ihl declared h1
      have hr := ihr declared h2
      simp [exprUndeclared, exprNonBool, hl.1, hl.2, hr.1, hr.2]
  | notEquals l r ihl ihr =>
      intro declared h
      simp only [checkExpr] at h
      obtain ⟨a, h1, h2⟩ := exceptBind_ok h
      cases a
      have hl := ihl declared h1
      have hr := ihr declared h2
      simp [exprUndeclared, exprNonBool, hl.1, hl.2, hr.1, hr.2]
  | conditional c t f ihc iht ihf =>
      intro declared h
      simp only [checkExpr] at h
      obtain ⟨a, h1, h'⟩ := exceptBind_ok h
      cases a
      obtain ⟨a, h2, h3⟩ := exceptBind_ok h'
      cases a
      have hc := ihc declared h1
      have ht := iht declared h2
      have hf := ihf declared h3
      simp [exprUndeclared, exprNonBool, hc.1, hc.2, ht.1, ht.2, hf.1, hf.2]

theorem checkExpr_error_semantic : ∀ (e : Expr) (declared : List String) (err : Err),
    checkExpr declared e = .error err → err.isSemantic = true := by
  intro e
  induction e with
  | boolLit b => intro declared err h; simp [checkExpr] at h
  | numLit m =>
      intro declared err h
      simp [checkExpr] at h
      rw [← h]
      rfl
  | ident n =>
      intro declared err h
      by_cases hd : n ∈ declared
      · simp [checkExpr, hd] at h
      · simp [checkExpr, hd] at h
        rw [← h]
        rfl
  | unaryNot e ih => intro declared err h; exact ih declared err h
  | logicalAnd l r ihl ihr =>
      intro declared err h
      simp only [checkExpr] at h
      rcases exceptBind_error_inv h with h1 | ⟨a, _, h2⟩
      · exact ihl declared err h1
      · exact ihr declared err h2
  | logicalOr l r ihl ihr =>
      intro declared err h
      simp only [checkExpr] at h
      rcases exceptBind_error_inv h with h1 | ⟨a, _, h2⟩
      · exact ihl declared err h1
      · exact ihr declared err h2
  | equals l r ihl ihr =>
      intro declared err h
      simp only [checkExpr] at h
      rcases exceptBind_error_inv h with h1 | ⟨a, _, h2⟩
      · exact ihl declared err h1
      · exact ihr declared err h2
  | notEquals l r ihl ihr =>
      intro declared err h
      simp only [checkExpr] at h
      rcases exceptBind_error_inv h with h1 | ⟨a, _, h2⟩
      · exact ihl declared err h1
      · exact ihr declared err h2
  | conditional c t f ihc iht ihf =>
      intro declared err h
      simp only [checkExpr] at h
      rcases exceptBind_error_inv h with h1 | ⟨a, _, h'⟩
      · exact ihc declared err h1
      · rcases exceptBind_error_inv h' with h2 | ⟨a, _, h3⟩
        · exact iht declared err h2
        · exact ihf declared err h3

theorem validateStmts_ok : ∀ (ss : List Stmt) (declared : List String),
    validateStmts declared ss = .ok () →
    useBeforeDecl declared ss = false ∧ hasNonBoolLit ss = false := by
  intro ss
  induction ss with
  | nil => intro declared _; exact ⟨rfl, rfl⟩
  | cons s rest ih =>
      intro declared h
      cases s with
      | varDecl name init =>
          by_cases hd : name ∈ declared
          · simp [validateStmts, hd] at h
          · simp only [validateStmts, hd, if_false] at h
            obtain ⟨a, h1, h2⟩ := exceptBind_ok h
            cases a
            have hc := checkExpr_ok init declared h1
            have hr := ih (name :: declared) h2
            simp [useBeforeDecl, hasNonBoolLit, hc.1, hc.2, hr.1]
            have := hr.2
            simp [hasNonBoolLit] at this
            exact this
      | assign name e =>
          by_cases hd : name ∈ declared
          · simp only [validateStmts, hd, if_true] at h
            obtain ⟨a, h1, h2⟩ := exceptBind_ok h
            cases a
            have hc := checkExpr_ok e declared h1
            have hr := ih declared h2
            simp [useBeforeDecl, hasNonBoolLit, hc.1, hc.2, hr.1]
            have := hr.2
            simp [hasNonBoolLit] at this
            exact this
          · simp [validateStmts, hd] at h
      | exprStmt e =>
          simp only [validateStmts] at h
          obtain ⟨a, h1, h2⟩ := exceptBind_ok h
          cases a
          have hc := checkExpr_ok e declared h1
          have hr := ih declared h2
          simp [useBeforeDecl, hasNonBoolLit, hc.1, hc.2, hr.1]
          have := hr.2
          simp [hasNonBoolLit] at this
          exact this

theorem validateStmts_error_semantic : ∀ (ss : List Stmt) (declared : List String) (e : Err),
    validateStmts declared ss = .error e → e.isSemantic = true := by
  intro ss
  induction ss with
  | nil => intro declared e h; simp [validateStmts] at h
  | cons s rest ih =>
      intro declared e h
      cases s with
      | varDecl name init =>
          by_cases hd : name ∈ declared
          · simp [validateStmts, hd] at h
            rw [← h]
            rfl
          · simp only [validateStmts, hd, if_false] at h
            rcases exceptBind_error_inv h with h1 | ⟨a, _, h2⟩
            · exact checkExpr_error_semantic init declared e h1
            · exact ih (name :: declared) e h2
      | assign name e' =>
          by_cases hd : name ∈ declared
          · simp only [validateStmts, hd, if_true] at h
            rcases exceptBind_error_inv h with h1 | ⟨a, _, h2⟩
            · exact checkExpr_error_semantic e' declared e h1
            · exact ih declared e h2
          · simp [validateStmts, hd] at h
            rw [← h]
            rfl
      | exprStmt e' =>
          simp only [validateStmts] at h
          rcases exceptBind_error_inv h with h1 | ⟨a, _, h2⟩
          · exact checkExpr_error_semantic e' declared e h1
          · exact ih declared e h2

/-- C1: compiling the canonical end-to-end program (`src/examples/input.js`)
produces a circuit whose single trailing bare-expression output evaluates
to false under the gate semantics. -/
theorem canonical_output_false :
    ∃ c, buildProgram canonicalProgram = .ok c ∧
      c.outputs.map (circuitValue c) = [false] :=
  ⟨_, rfl, rfl⟩

/-- C2: every gate kind has its exact boolean truth table: NOT(true)=false,
AND(true,false)=false, OR(false,true)=true, XOR(true,true)=false,
XNOR(true,true)=true, and for all a b, MUX(true,a,b)=a and
MUX(false,a,b)=b. -/
theorem gate_truth_tables :
    applyGate .NOT [true] = false ∧
    applyGate .AND [true, false] = false ∧
    applyGate .OR [false, true] = true ∧
    applyGate .XOR [true, true] = false ∧
    applyGate .XNOR [true, true] = true ∧
    (∀ a b : Bool, applyGate .MUX [true, a, b] = a) ∧
    (∀ a b : Bool, applyGate .MUX [false, a, b] = b) := by
  refine ⟨rfl, rfl, rfl, rfl, rfl, ?_, ?_⟩ <;> (intro a b; rfl)

/-- C3: reassignment compiles the right-hand side against the Environment
as it stood before the reassignment, then overwrites the binding: in
`let a=true; let b=a; a=false; let c=a;` the names `b` and `c` end up
bound to different nodes (the TRUE constant vs the FALSE constant), and
in the self-referential `let a=true; a=!a;` the new binding is a NOT node
whose operand is the prior binding of `a`. -/
theorem reassignment_reads_prior_binding :
    (∃ st, buildStmts initBState rebindProgram = .ok st ∧
      st.env.lookup "b" = some trueNodeId ∧
      st.env.lookup "c" = some falseNodeId ∧
      trueNodeId ≠ falseNodeId ∧
      st.nodes.getD trueNodeId dfltNode = ⟨.CONST true, []⟩ ∧
      st.nodes.getD falseNodeId dfltNode = ⟨.CONST false, []⟩) ∧
    (∃ st, buildStmts initBState selfRefProgram = .ok st ∧
      st.env.lookup "a" = some 2 ∧
      st.nodes.getD 2 dfltNode = ⟨.NOT, [trueNodeId]⟩) :=
  ⟨⟨_, rfl, rfl, rfl, by decide, rfl, rfl⟩, ⟨_, rfl, rfl, rfl⟩⟩

/-- C4: the pipeline is deterministic — compiling equal validated syntax
trees twice produces identical intermediate-graph and schematic
artifacts. -/
theorem compile_deterministic : ∀ p q : Program, p = q → compile p = compile q := by
  intro p q h
  rw [h]

/-- Witness for C4 at the canonical program. -/
theorem compile_deterministic_witness :
    compile canonicalProgram = compile canonicalProgram :=
  compile_deterministic canonicalProgram canonicalProgram rfl

/-- C5: for every Circuit produced by the Graph Builder, the node-operand
relation is acyclic — no node is reachable from itself via operand
edges. -/
theorem circuit_acyclic : ∀ (p : Program) (c : Circuit), buildProgram p = .ok c →
    ∀ i, ¬ Relation.TransGen (opEdge c) i i := by
  intro p c h i hti
  have hwf := (buildProgram_inv p c h).1
  have hlt : ∀ a b, Relation.TransGen (opEdge c) a b → b < a := by
    intro a b htg
    induction htg with
    | single h' => exact hwf _ h'.1 _ h'.2
    | tail h1 h2 ih =>
        have := hwf _ h2.1 _ h2.2
        omega
  have := hlt i i hti
  omega

/-- Witness for C5 at a concrete one-statement program. -/
theorem circuit_acyclic_witness :
    ¬ Relation.TransGen (opEdge tinyCircuit) 0 0 :=
  circuit_acyclic tinyProgram tinyCircuit rfl 0

/-- C6: in every produced Circuit, every node's operand count equals the
arity fixed by its kind (NOT=1, AND/OR/XOR/XNOR=2, MUX=3,
INPUT/CONST=0). -/
theorem arity_conformance : ∀ (p : Program) (c : Circuit), buildProgram p = .ok c →
    ∀ i, i < c.nodes.length →
      (nodeAt c i).operands.length = (nodeAt c i).kind.arity := by
  intro p c h i hi
  exact (buildProgram_inv p c h).2 i hi

/-- Witness for C6 at a concrete one-statement program. -/
theorem arity_conformance_witness :
    (nodeAt tinyCircuit 0).operands.length = (nodeAt tinyCircuit 0).kind.arity :=
  arity_conformance tinyProgram tinyCircuit rfl 0 (by decide)

/-- C7: the Layering Engine computes, for every node of a produced
Circuit, depth = 0 when the node has no operands and otherwise 1 + the
maximum depth over its operands, and assigns layer = depth (the node is
filed in the LayoutGrid bucket of its depth). -/
theorem layering_depth_recurrence : ∀ (p : Program) (c : Circuit),
    buildProgram p = .ok c → ∀ i, i < c.nodes.length →
    ((depths c).getD i 0 =
      if (nodeAt c i).operands = [] then 0
      else 1 + ((nodeAt c i).operands.map (fun j => (depths c).getD j 0)).foldl max 0) ∧
    layerOf c i = (depths c).getD i 0 ∧
    i ∈ gridLayer c ((depths c).getD i 0) := by
  intro p c h i hi
  have hwf := (buildProgram_inv p c h).1
  exact ⟨depths_recurrence c hwf i hi, rfl, mem_gridLayer c i hi⟩

/-- Witness for C7 at a concrete one-statement program. -/
theorem layering_depth_recurrence_witness :
    ((depths tinyCircuit).getD 0 0 =
      if (nodeAt tinyCircuit 0).operands = [] then 0
      else 1 + ((nodeAt tinyCircuit 0).operands.map
        (fun j => (depths tinyCircuit).getD j 0)).foldl max 0) ∧
    layerOf tinyCircuit 0 = (depths tinyCircuit).getD 0 0 ∧
    0 ∈ gridLayer tinyCircuit ((depths tinyCircuit).getD 0 0) :=
  layering_depth_recurrence tinyProgram tinyCircuit rfl 0 (by decide)

/-- C8: placement is collision-free within layers — distinct nodes of the
same layer receive different 3D positions (their ranks differ on the rank
axis). -/
theorem placement_collision_free : ∀ (c : Circuit) (i j : Nat),
    i < c.nodes.length → j < c.nodes.length → i ≠ j →
    layerOf c i = layerOf c j → placeNode c i ≠ placeNode c j := by
  intro c i j hi hj hne hlay heq
  apply hne
  have hy : rankOf c i * fixedSpacing = rankOf c j * fixedSpacing :=
    congrArg Pos3.y heq
  have hrank : rankOf c i = rankOf c j :=
    Nat.eq_of_mul_eq_mul_right (by norm_num [fixedSpacing]) hy
  have hiL : i ∈ gridLayer c (layerOf c i) := mem_gridLayer c i hi
  have hjL : j ∈ gridLayer c (layerOf c i) := by
    have := mem_gridLayer c j hj
    rwa [← hlay] at this
  have hidx : (gridLayer c (layerOf c i)).indexOf i =
      (gridLayer c (layerOf c i)).indexOf j := by
    have h2 : rankOf c j = (gridLayer c (layerOf c i)).indexOf j := by
      rw [rankOf, hlay]
    rw [← h2, ← hrank]
    rfl
  exact (List.indexOf_inj hiL hjL).mp hidx

/-- Witness for C8: the two constant nodes of a concrete circuit share
layer 0 yet receive different positions. -/
theorem placement_collision_free_witness :
    placeNode tinyCircuit 0 ≠ placeNode tinyCircuit 1 :=
  placement_collision_free tinyCircuit 0 1 (by decide) (by decide) (by decide) (by decide)

/-- C9: a program that uses an identifier before its declaration or that
contains a non-boolean literal makes the pipeline fail with a
SemanticError; the `Except.error` result carries no intermediate-graph or
schematic artifact. -/
theorem rejection_semantic : ∀ p : Program,
    (useBeforeDecl [] p = true ∨ hasNonBoolLit p = true) →
    ∃ e, compile p = .error e ∧ e.isSemantic = true := by
  intro p hbad
  cases hv : validate p with
  | ok u =>
      cases u
      have hok := validateStmts_ok p [] hv
      rcases hbad with hb | hb
      · rw [hok.1] at hb
        exact absurd hb (by simp)
      · rw [hok.2] at hb
        exact absurd hb (by simp)
  | error e =>
      refine ⟨e, ?_, validateStmts_error_semantic p [] e hv⟩
      simp only [compile]
      exact exceptBind_error hv

/-- Witness for C9 at a concrete program using `x` before declaration. -/
theorem rejection_semantic_witness :
    (useBeforeDecl [] badUseProgram = true ∨ hasNonBoolLit badUseProgram = true) ∧
    (∃ e, compile badUseProgram = .error e ∧ e.isSemantic = true) :=
  ⟨Or.inl (by decide), rejection_semantic badUseProgram (Or.inl (by decide))⟩

/-- C10: compiling the canonical example program yields exactly one output
signal; it references node 12, which is the node created by the
reassignment `intermediate = intermediate ? e : b` (the node count grows
from 12 to 13 at that statement), not node 11, the node the original
`let intermediate` initializer bound. -/
theorem canonical_single_output_from_reassignment :
    ∃ stF st9 st8,
      buildStmts initBState canonicalProgram = .ok stF ∧
      buildStmts initBState (canonicalProgram.take 9) = .ok st9 ∧
      buildStmts initBState (canonicalProgram.take 8) = .ok st8 ∧
      stF.outputs = [12] ∧
      st9.env.lookup "intermediate" = some 12 ∧
      st9.nodes.length = 13 ∧
      st8.nodes.length = 12 ∧
      st8.env.lookup "intermediate" = some 11 ∧
      (11 : Nat) ≠ 12 :=
  ⟨_, _, _, rfl, rfl, rfl, rfl, rfl, rfl, rfl, rfl, by decide⟩

end Schemlogica
